import Mathlib

/-!
Verification of the Canetti et al. reusable fuzzy extractor implementation
(`src/canetti/canetti.py` and `src/canetti/digitallocker.py`).

Python strings are modelled as lists of Unicode code points (`Str`), byte
strings as lists of byte values (`Bytes`).  The hash function is an abstract
parameter `H : Str → Bytes → ℕ` mapping an algorithm name and an input byte
string to the integer value of the hexadecimal digest, i.e. it models the
composition `int(hashlib.new(name, data).hexdigest(), 16)` appearing in the
source.  Randomness (`secrets.token_bytes`, `np.random.randint`) is passed in
explicitly as function arguments.
-/

namespace Canetti

/-- Python `str` values, as lists of Unicode code points. -/
abbrev Str := List Nat

/-- Python `bytes` values, as lists of byte values. -/
abbrev Bytes := List Nat

/-- Code points of a Lean string literal, used to write ASCII constants. -/
def strLit (s : String) : Str := s.toList.map Char.toNat

/-- Lowercase hexadecimal digit character for a value below 16. -/
def toHexDigit (d : Nat) : Nat := if d < 10 then 48 + d else 87 + d

/-- Value of a hexadecimal digit character, or `none` for a non-hex character. -/
def hexVal? (c : Nat) : Option Nat :=
  if 48 ≤ c ∧ c ≤ 57 then some (c - 48)
  else if 97 ≤ c ∧ c ≤ 102 then some (c - 87)
  else if 65 ≤ c ∧ c ≤ 70 then some (c - 55)
  else none

/-- Digits of `n` in base `b`, least significant first, with explicit fuel so
that the definition is structurally recursive and kernel-reducible. -/
def digitsRevFuel (b : Nat) : Nat → Nat → List Nat
  | 0, _ => []
  | f + 1, n => if n = 0 then [] else n % b :: digitsRevFuel b f (n / b)

/-- Digits of `n` in base `b`, least significant first (`[]` for `0`). -/
def digitsRev (b n : Nat) : List Nat := digitsRevFuel b n n

/-- Python `hex(n)[2:]` for a nonnegative `n`: minimal lowercase hexadecimal
representation, `"0"` for zero. -/
def pyHex (n : Nat) : Str :=
  if n = 0 then [48] else ((digitsRev 16 n).map toHexDigit).reverse

/-- Python `str(n)` for a nonnegative integer: minimal decimal representation. -/
def decRepr (n : Nat) : Str :=
  if n = 0 then [48] else ((digitsRev 10 n).map (fun d => 48 + d)).reverse

/-- Python `bytes.hex()`: two lowercase hex characters per byte. -/
def bytesToHex : Bytes → Str
  | [] => []
  | b :: r => toHexDigit (b / 16) :: toHexDigit (b % 16) :: bytesToHex r

/-- Big-endian integer value of a byte string; models `int(b.hex(), 16)`.
(Python raises `ValueError` on the empty string; that case is reached in
`lock` only for an empty value with `s = 0` and is not exercised here.) -/
def bytesToNat : Bytes → Nat
  | [] => 0
  | b :: r => b * 256 ^ r.length + bytesToNat r

/-- Python `int(s, 16)` on the plain-hex-digit fragment: `none` models the
`ValueError` raised on the empty string or a non-hexadecimal character.
(Pythonic extras such as sign, whitespace, a `0x` prefix or underscores are
not produced by `lock` and are not modelled.) -/
def hexToNat? (s : Str) : Option Nat :=
  if s.isEmpty then none
  else s.foldl (fun acc c => acc.bind fun a => (hexVal? c).map fun v => 16 * a + v) (some 0)

/-- Python `bytes.fromhex(s)`: `none` models the `ValueError` raised on a
string of odd length or with a non-hexadecimal character. -/
def fromhex? : Str → Option Bytes
  | [] => some []
  | [_] => none
  | c1 :: c2 :: r =>
    match hexVal? c1, hexVal? c2, fromhex? r with
    | some hi, some lo, some bs => some ((16 * hi + lo) :: bs)
    | _, _, _ => none

/-- UTF-8 encoding of one code point.  (Python `str.encode` raises on
surrogate code points; no string arising in this program contains one.) -/
def utf8encodeChar (c : Nat) : Bytes :=
  if c < 128 then [c]
  else if c < 2048 then [192 + c / 64, 128 + c % 64]
  else if c < 65536 then [224 + c / 4096, 128 + c / 64 % 64, 128 + c % 64]
  else [240 + c / 262144, 128 + c / 4096 % 64, 128 + c / 64 % 64, 128 + c % 64]

/-- Python `str.encode()`: UTF-8 encoding of a string. -/
def utf8encode : Str → Bytes
  | [] => []
  | c :: r => utf8encodeChar c ++ utf8encode r

/-- Strict UTF-8 decoding state machine: `need` pending continuation bytes,
`cp` the accumulated code point, `lo` the smallest code point admissible for
the current sequence length (rejecting overlong encodings); surrogates and
values above `0x10FFFF` are rejected, as Python's strict decoder does. -/
def utf8dec : Bytes → Nat → Nat → Nat → Option Str
  | [], 0, _, _ => some []
  | [], _ + 1, _, _ => none
  | b :: rest, 0, _, _ =>
    if b < 128 then (utf8dec rest 0 0 0).map (b :: ·)
    else if b < 192 then none
    else if b < 224 then utf8dec rest 1 (b - 192) 128
    else if b < 240 then utf8dec rest 2 (b - 224) 2048
    else if b < 248 then utf8dec rest 3 (b - 240) 65536
    else none
  | b :: rest, need + 1, cp, lo =>
    if 128 ≤ b ∧ b < 192 then
      match need with
      | 0 =>
        if lo ≤ cp * 64 + (b - 128) ∧ cp * 64 + (b - 128) < 1114112 ∧
            ¬(55296 ≤ cp * 64 + (b - 128) ∧ cp * 64 + (b - 128) < 57344) then
          (utf8dec rest 0 0 0).map ((cp * 64 + (b - 128)) :: ·)
        else none
      | m + 1 => utf8dec rest (m + 1) (cp * 64 + (b - 128)) lo
    else none

/-- Python `bytes.decode()`: `none` models the `UnicodeDecodeError`. -/
def utf8decode (bs : Bytes) : Option Str := utf8dec bs 0 0 0

/-- Python `s[-k:]`: the whole string for `k = 0`, else the last `k`
characters (the whole string when `k` exceeds the length). -/
def pySliceNeg (s : Str) (k : Nat) : Str :=
  if k = 0 then s else s.drop (s.length - k)

/-- Python `s.rstrip("0")`: remove every trailing `'0'` character. -/
def rstripZeros (s : Str) : Str := (s.reverse.dropWhile (· == 48)).reverse

/-- Python `str(v)` for a list of small integers: `"[a, b, c]"`.  (The exact
element representation is version dependent for numpy scalars; `gen` and
`rep` apply the same conversion, which is all the proofs use.) -/
def strOfBits (l : List Nat) : Str :=
  91 :: (List.intercalate [44, 32] (l.map decRepr)) ++ [93]

/-- One byte of the Python `repr` of a bytes object, with quote character `q`. -/
def escByte (q b : Nat) : Str :=
  if b = 92 then [92, 92]
  else if b = q then [92, q]
  else if b = 9 then [92, 116]
  else if b = 10 then [92, 110]
  else if b = 13 then [92, 114]
  else if 32 ≤ b ∧ b < 127 then [b]
  else [92, 120, toHexDigit (b / 16), toHexDigit (b % 16)]

/-- Escaped body of the Python `repr` of a bytes object. -/
def escBytes (q : Nat) : Bytes → Str
  | [] => []
  | b :: r => escByte q b ++ escBytes q r

/-- Quote character of the Python `repr` of a bytes object: double quote when
the bytes contain a single quote but no double quote, else single quote. -/
def reprQuote (bs : Bytes) : Nat := if 39 ∈ bs ∧ ¬(34 ∈ bs) then 34 else 39

/-- Python `str(b)` for a bytes object `b`: the `repr` string `b'...'`. -/
def reprBytes (bs : Bytes) : Str :=
  98 :: reprQuote bs :: escBytes (reprQuote bs) bs ++ [reprQuote bs]

/-- The fourteen members of `hashlib.algorithms_guaranteed` in CPython. -/
def algorithms_guaranteed : List Str :=
  ["blake2b", "blake2s", "md5", "sha1", "sha224", "sha256", "sha384",
   "sha3_224", "sha3_256", "sha3_384", "sha3_512", "sha512",
   "shake_128", "shake_256"].map strLit

/-- The `alg` argument of `lock`/`unlock`: either a Python string or a value
of some other type (for which `isinstance(alg, str)` is false). -/
inductive AlgArg
  | str (s : Str)
  | nonstr
  deriving DecidableEq

/-- Algorithm selection common to `lock` and `unlock`: fall back to `sha256`
when `alg` is not a string or not in `hashlib.algorithms_guaranteed`. -/
def selectAlg : AlgArg → Str
  | .str s => if s ∈ algorithms_guaranteed then s else strLit "sha256"
  | .nonstr => strLit "sha256"

/-- The two extendable-output members of `algorithms_guaranteed`.  For these
`hexdigest()` takes a mandatory length argument, so the bare
`hash_alg.hexdigest()` call in the source raises `TypeError`.  The abstract
digest `H` below is total and does not model that raise, so statements
quantifying over the algorithm must exclude these two selections. -/
def xofAlgorithms : List Str := [strLit "shake_128", strLit "shake_256"]

/-- Python `int()` applied to a float: truncation toward zero. -/
noncomputable def pyInt (x : ℝ) : ℤ := if 0 ≤ x then ⌊x⌋ else ⌈x⌉

/-- The parameter calculator `set_l` of `canetti.py`:
`0 if n < 2 or k < 1 or t < 1 or delta < 0 or delta > 1 else
int(n ** math.ceil((t * k) / (n * math.log(n))) * math.log2(4 / delta))`. -/
noncomputable def set_l (n k : ℤ) (t delta : ℝ) : ℤ :=
  if n < 2 ∨ k < 1 ∨ t < 1 ∨ delta < 0 ∨ delta > 1 then 0
  else pyInt ((n : ℝ) ^ (⌈(t * (k : ℝ)) / ((n : ℝ) * Real.log (n : ℝ))⌉ : ℤ) *
    Real.logb 2 (4 / delta))

/-- The digital locker `lock` operation of `digitallocker.py`.  `nonceBytes`
is the value drawn by `secrets.token_bytes(nbytes)`; the caller has already
applied `str()` to `key` (the source applies it inside `lock`).  Returns the
pair `(nonce, hex(H(nonce + key) xor int((val + "0"*s).encode().hex(), 16))[2:])`.
The digest is total here; in CPython `hexdigest()` raises `TypeError` when
the selected algorithm is one of `xofAlgorithms`, a case theorems about
`lock` exclude. -/
def lock (H : Str → Bytes → Nat) (nonceBytes : Bytes) (key val : Str) (s : Nat)
    (alg : AlgArg) : Str × Str :=
  let nonce := bytesToHex nonceBytes
  let digest := H (selectAlg alg) (utf8encode (nonce ++ key))
  let valZero := val ++ List.replicate s 48
  let xorVal := digest ^^^ bytesToNat (utf8encode valZero)
  (nonce, pyHex xorVal)

/-- The digital locker `unlock` operation of `digitallocker.py`.  The input
`c` is a Python tuple of strings; unpacking it into `(nonce, xor_val)` fails
with a caught `ValueError` (result `None`, modelled `.ok none`) when the
arity is not 2.  A cipher string that `int(xor_val, 16)` cannot parse raises
an uncaught `ValueError`, modelled `.error ()`.  Decode failures are caught
and yield `None`; otherwise the trailing-zero check and `rstrip("0")` of the
source are applied.  As in `lock`, the digest is total here and theorems
exclude the `xofAlgorithms` selections, for which CPython's `hexdigest()`
raises `TypeError`. -/
def unlock (H : Str → Bytes → Nat) (key : Str) (c : List Str) (s : Nat)
    (alg : AlgArg) : Except Unit (Option Str) :=
  match c with
  | [nonce, xorValStr] =>
    let digest := H (selectAlg alg) (utf8encode (nonce ++ key))
    match hexToNat? xorValStr with
    | none => .error ()
    | some xv =>
      match (fromhex? (pyHex (digest ^^^ xv))).bind utf8decode with
      | none => .ok none
      | some val =>
        .ok (if List.replicate s 48 = pySliceNeg val s then some (rstripZeros val) else none)
  | _ => .ok none

/-- One helper-data entry as stored in the list `p` produced by `gen`: either
a well-formed pair `(c_i, j_i)` or a tuple of some other arity, whose
unpacking in `rep` raises the caught `ValueError`. -/
inductive PEntry
  | pair (c : List Str) (ji : List Nat)
  | badTuple (arity : Nat)
  deriving DecidableEq

/-- The sub-pattern `[w[ji[j]] for j in range(0, cnt)]` starting at position
`start`, with `none` modelling an uncaught `IndexError` (either `ji[j]` or
`w[ji[j]]` out of range). -/
def subFrom (w ji : List Nat) (start : Nat) : Nat → Option (List Nat)
  | 0 => some []
  | cnt + 1 =>
    match ji.get? start with
    | none => none
    | some ix =>
      match w.get? ix with
      | none => none
      | some bit => (subFrom w ji (start + 1) cnt).map (bit :: ·)

/-- The sub-pattern `[w[ji[j]] for j in range(0, kG)]` of `rep`, where `kG`
is the module-level global `k` that the body of `rep` reads. -/
def subpattern? (w ji : List Nat) (kG : Nat) : Option (List Nat) :=
  subFrom w ji 0 kG

/-- Steps 2.i–2.iii of `rep` for one well-formed entry: extract the
sub-pattern and attempt `dl.unlock(vi, ci)` (with `unlock`'s defaults
`s = 16`, `alg = "sha-256"`). -/
def repAttempt (H : Str → Bytes → Nat) (kG : Nat) (wprime : List Nat)
    (c : List Str) (ji : List Nat) : Except Unit (Option Str) :=
  match subpattern? wprime ji kG with
  | none => .error ()
  | some vi => unlock H (strOfBits vi) c 16 (.str (strLit "sha-256"))

/-- The `rep` procedure of `canetti.py`.  `kG` is the module-level global `k`
read by the loop body.  A malformed entry (tuple arity ≠ 2) prints a message
and returns `None` immediately; an unlock result is returned only when it is
truthy (a nonempty string), otherwise the loop continues; `None` is returned
when the entries are exhausted. -/
def rep (H : Str → Bytes → Nat) (kG : Nat) (wprime : List Nat) :
    List PEntry → Except Unit (Option Str)
  | [] => .ok none
  | .badTuple _ :: _ => .ok none
  | .pair c ji :: rest =>
    match repAttempt H kG wprime c ji with
    | .error e => .error e
    | .ok none => rep H kG wprime rest
    | .ok (some riv) => if riv.isEmpty then rep H kG wprime rest else .ok (some riv)

/-- The `gen` procedure of `canetti.py`.  `keyBytes` is the value drawn by
`secrets.token_bytes(k // 8)` (so a faithful caller passes a list of length
`k / 8`), `idxRand i j` the `j`-th value of `np.random.randint(0, n, size=k)`
in iteration `i` (reduced mod `n`, matching the `[0, n)` range of `randint`),
and `nonceRand i` the nonce bytes drawn inside the `i`-th `lock` call.
Returns `(r, p)` with `r = str(secrets.token_bytes(k // 8))` and `p` the list
of `l = set_l(n, k, t, delta)` entries `(lock(vi, r), ji)`.  Iteration `i`
of the loop in step 3 is `genEntry`: sample the index set `ji`, extract the
sub-pattern `vi = [w[ji[j]] for j in range(0, k)]` (always in range, since
`randint` draws below `n = len(w)`), lock the key string `r` under `vi`, and
store the pair `(c_i, ji)`. -/
def genEntry (H : Str → Bytes → Nat) (w : List Nat) (k : Nat) (r : Str)
    (idxRand : Nat → Nat → Nat) (nonceRand : Nat → Bytes) (i : Nat) : PEntry :=
  let ji := (List.range k).map fun j => idxRand i j % w.length
  let vi := (List.range k).map fun j => w.getD (ji.getD j 0) 0
  let ci := lock H (nonceRand i) (strOfBits vi) r 16 (.str (strLit "sha-256"))
  PEntry.pair [ci.1, ci.2] ji

noncomputable def gen (H : Str → Bytes → Nat) (w : List Nat) (k : Nat) (t delta : ℝ)
    (keyBytes : Bytes) (idxRand : Nat → Nat → Nat) (nonceRand : Nat → Bytes) :
    Str × List PEntry :=
  let r := reprBytes keyBytes
  let l := (set_l w.length k t delta).toNat
  (r, (List.range l).map (genEntry H w k r idxRand nonceRand))

/-- Invariant check for one helper-data entry: a well-formed pair whose index
set has exactly `k` indices, all below `n`. -/
def entryOk (k n : Nat) : PEntry → Bool
  | .pair _ ji => ji.length == k && ji.all (· < n)
  | .badTuple _ => false

/-- Truthiness filter on an unlock result: Python's `if ri:` accepts only a
nonempty string. -/
def truthy : Option Str → Option Str
  | some v => if v.isEmpty then none else some v
  | none => none

/-- The unlock result `rep` computes for an entry, with a raised exception or
a malformed entry contributing `none`. -/
def attemptResult (H : Str → Bytes → Nat) (kG : Nat) (wprime : List Nat) :
    PEntry → Option Str
  | .pair c ji =>
    match repAttempt H kG wprime c ji with
    | .ok o => o
    | .error _ => none
  | .badTuple _ => none

end Canetti

deriving instance DecidableEq for Except

namespace Canetti

/-! Auxiliary lemmas about the numeral, hexadecimal and UTF-8 helpers. -/

theorem digitsRevFuel_stable (b : Nat) (hb : 2 ≤ b) :
    ∀ n f1 f2, n ≤ f1 → n ≤ f2 → digitsRevFuel b f1 n = digitsRevFuel b f2 n := by
  intro n
  induction n using Nat.strong_induction_on with
  | _ n ih =>
    intro f1 f2 h1 h2
    rcases n with _ | n
    · rcases f1 with _ | f1 <;> rcases f2 with _ | f2 <;> simp [digitsRevFuel]
    · rcases f1 with _ | f1
      · omega
      rcases f2 with _ | f2
      · omega
      simp only [digitsRevFuel, if_neg (Nat.succ_ne_zero n)]
      have hdiv : (n + 1) / b < n + 1 := Nat.div_lt_self (Nat.succ_pos n) (by omega)
      exact congrArg _ (ih ((n + 1) / b) hdiv f1 f2 (by omega) (by omega))

theorem digitsRev_eq_cons (b : Nat) (hb : 2 ≤ b) {n : Nat} (hn : n ≠ 0) :
    digitsRev b n = n % b :: digitsRev b (n / b) := by
  rcases n with _ | m
  · exact absurd rfl hn
  show digitsRevFuel b (m + 1) (m + 1) = _
  simp only [digitsRevFuel, if_neg (Nat.succ_ne_zero m)]
  have hdiv : (m + 1) / b < m + 1 := Nat.div_lt_self (Nat.succ_pos m) (by omega)
  exact congrArg _ (digitsRevFuel_stable b hb ((m + 1) / b) m ((m + 1) / b) (by omega) le_rfl)

theorem digitsRev_zero (b : Nat) : digitsRev b 0 = [] := rfl

theorem digitsRev_small (b : Nat) (hb : 2 ≤ b) {n : Nat} (h1 : 1 ≤ n) (h2 : n < b) :
    digitsRev b n = [n] := by
  rw [digitsRev_eq_cons b hb (by omega), Nat.mod_eq_of_lt h2, Nat.div_eq_of_lt h2, digitsRev_zero]

theorem digitsRev_two_digits (b : Nat) (hb : 2 ≤ b) {n : Nat} (h1 : b ≤ n) (h2 : n < b * b) :
    digitsRev b n = [n % b, n / b] := by
  have hb0 : 0 < b := by omega
  rw [digitsRev_eq_cons b hb (by omega),
    digitsRev_small b hb (Nat.le_div_iff_mul_le hb0 |>.mpr (by omega))
      ((Nat.div_lt_iff_lt_mul hb0).mpr h2)]

theorem pyHex_ne_nil (n : Nat) : pyHex n ≠ [] := by
  rw [pyHex]
  split
  · simp
  · rename_i hn
    rw [digitsRev_eq_cons 16 (by omega) hn]
    simp

theorem hexVal_toHexDigit : ∀ d, d < 16 → hexVal? (toHexDigit d) = some d := by decide

theorem pyHex_foldl (f : Option Nat → Nat → Option Nat)
    (hf : f = fun acc c => acc.bind fun a => (hexVal? c).map fun v => 16 * a + v) :
    ∀ n, (pyHex n).foldl f (some 0) = some n := by
  intro n
  induction n using Nat.strong_induction_on with
  | _ n ih =>
    rcases Nat.lt_or_ge n 16 with hlt | hge
    · rcases Nat.eq_zero_or_pos n with rfl | hpos
      · simp [pyHex, hf, hexVal?]
      · rw [pyHex, if_neg (by omega), digitsRev_small 16 (by omega) hpos hlt]
        simp [hf, hexVal_toHexDigit n hlt]
    · have hne : n ≠ 0 := by omega
      have hd : n / 16 ≠ 0 := by
        intro h
        have := Nat.div_eq_of_lt (show n < 16 by omega)
        omega
      have hstep : pyHex n = pyHex (n / 16) ++ [toHexDigit (n % 16)] := by
        rw [pyHex, if_neg hne, digitsRev_eq_cons 16 (by omega) hne]
        simp only [List.map_cons, List.reverse_cons]
        rw [pyHex, if_neg hd]
      rw [hstep, List.foldl_append, ih (n / 16) (Nat.div_lt_self (by omega) (by omega))]
      simp [hf, hexVal_toHexDigit (n % 16) (Nat.mod_lt n (by omega))]
      omega

theorem hexToNat_pyHex (n : Nat) : hexToNat? (pyHex n) = some n := by
  rw [hexToNat?, if_neg (by simpa [List.isEmpty_iff] using pyHex_ne_nil n)]
  exact pyHex_foldl _ rfl n

/-- Little-endian hexadecimal digit values of a byte string read from the right. -/
def leDigits : Bytes → List Nat
  | [] => []
  | b :: r => leDigits r ++ [b % 16, b / 16]

theorem digitsRev_byte_shift {b m : Nat} (hb : b < 256) (hm : 1 ≤ m) :
    digitsRev 16 (b + 256 * m) = b % 16 :: b / 16 :: digitsRev 16 m := by
  have h1 : b + 256 * m ≠ 0 := by omega
  rw [digitsRev_eq_cons 16 (by omega) h1]
  have e1 : (b + 256 * m) % 16 = b % 16 := by omega
  have e2 : (b + 256 * m) / 16 = b / 16 + 16 * m := by omega
  rw [e1, e2, digitsRev_eq_cons 16 (by omega) (by omega)]
  have h3 : b / 16 < 16 := by omega
  have e3 : (b / 16 + 16 * m) % 16 = b / 16 := by omega
  have e4 : (b / 16 + 16 * m) / 16 = m := by omega
  rw [e3, e4]

theorem digitsRev_bytes (bs : Bytes) (hbs : ∀ x ∈ bs, x < 256) :
    ∀ m, 1 ≤ m →
      digitsRev 16 (bytesToNat bs + m * 256 ^ bs.length) = leDigits bs ++ digitsRev 16 m := by
  induction bs with
  | nil => intro m hm; simp [bytesToNat, leDigits]
  | cons b rest ih =>
    intro m hm
    have hb : b < 256 := hbs b (by simp)
    have hrest : ∀ x ∈ rest, x < 256 := fun x hx => hbs x (by simp [hx])
    have e : bytesToNat (b :: rest) + m * 256 ^ (b :: rest).length
        = bytesToNat rest + (b + 256 * m) * 256 ^ rest.length := by
      simp [bytesToNat, List.length_cons, pow_succ]
      ring
    rw [e, ih hrest (b + 256 * m) (by omega), digitsRev_byte_shift hb hm, leDigits]
    simp

theorem leDigits_map_reverse (bs : Bytes) :
    ((leDigits bs).map toHexDigit).reverse = bytesToHex bs := by
  induction bs with
  | nil => rfl
  | cons b r ih => simp [leDigits, bytesToHex, ← ih]

theorem bytesToNat_lt (bs : Bytes) (hbs : ∀ x ∈ bs, x < 256) :
    bytesToNat bs < 256 ^ bs.length := by
  induction bs with
  | nil => simp [bytesToNat]
  | cons b r ih =>
    have hb : b < 256 := hbs b (by simp)
    have hr := ih (fun x hx => hbs x (by simp [hx]))
    simp only [bytesToNat, List.length_cons, pow_succ]
    calc b * 256 ^ r.length + bytesToNat r
        < b * 256 ^ r.length + 256 ^ r.length := by omega
      _ = (b + 1) * 256 ^ r.length := by ring
      _ ≤ 256 ^ r.length * 256 := by
          rw [mul_comm (256 ^ r.length) 256]
          exact Nat.mul_le_mul_right _ (by omega)

theorem pyHex_bytesToNat {b : Nat} {rest : Bytes} (hb16 : 16 ≤ b) (hb : b < 256)
    (hrest : ∀ x ∈ rest, x < 256) :
    pyHex (bytesToNat (b :: rest)) = bytesToHex (b :: rest) := by
  have hpos : bytesToNat (b :: rest) ≠ 0 := by
    have : 1 * 256 ^ rest.length ≤ b * 256 ^ rest.length :=
      Nat.mul_le_mul_right _ (by omega)
    have hp : 0 < 256 ^ rest.length := Nat.pos_pow_of_pos _ (by omega)
    simp only [bytesToNat]
    omega
  have e : bytesToNat (b :: rest) = bytesToNat rest + b * 256 ^ rest.length := by
    simp [bytesToNat]; omega
  rw [pyHex, if_neg hpos, e, digitsRev_bytes rest hrest b (by omega),
    digitsRev_two_digits 16 (by omega) hb16 (by omega)]
  have : leDigits rest ++ [b % 16, b / 16] = leDigits (b :: rest) := rfl
  rw [this, leDigits_map_reverse]

theorem fromhex_bytesToHex (bs : Bytes) (hbs : ∀ x ∈ bs, x < 256) :
    fromhex? (bytesToHex bs) = some bs := by
  induction bs with
  | nil => rfl
  | cons b r ih =>
    have hb : b < 256 := hbs b (by simp)
    have hr := ih (fun x hx => hbs x (by simp [hx]))
    show fromhex? (toHexDigit (b / 16) :: toHexDigit (b % 16) :: bytesToHex r) = _
    rw [fromhex?, hexVal_toHexDigit (b / 16) (by omega), hexVal_toHexDigit (b % 16) (by omega), hr]
    have e : 16 * (b / 16) + b % 16 = b := by omega
    simp [e]

theorem bytesToHex_foldl (f : Option Nat → Nat → Option Nat)
    (hf : f = fun acc c => acc.bind fun a => (hexVal? c).map fun v => 16 * a + v) :
    ∀ bs : Bytes, (∀ x ∈ bs, x < 256) → ∀ a : Nat,
      (bytesToHex bs).foldl f (some a) = some (a * 256 ^ bs.length + bytesToNat bs) := by
  intro bs
  induction bs with
  | nil => intro hbs a; simp [bytesToHex, bytesToNat]
  | cons b r ih =>
    intro hbs a
    have hb : b < 256 := hbs b (by simp)
    show List.foldl f (f (f (some a) (toHexDigit (b / 16))) (toHexDigit (b % 16)))
        (bytesToHex r) = _
    have e1 : f (some a) (toHexDigit (b / 16)) = some (16 * a + b / 16) := by
      rw [hf]
      simp [hexVal_toHexDigit (b / 16) (by omega)]
    have e2 : f (some (16 * a + b / 16)) (toHexDigit (b % 16))
        = some (256 * a + b) := by
      rw [hf]
      simp [hexVal_toHexDigit (b % 16) (by omega)]
      omega
    rw [e1, e2, ih (fun x hx => hbs x (by simp [hx])) (256 * a + b)]
    simp only [bytesToNat, List.length_cons, pow_succ]
    ring_nf

/-- Validation of the `lock` embedding: on nonempty byte strings the modelled
`bytesToNat` agrees with the source composition `int(b.hex(), 16)`
(`hexToNat?` applied to `bytesToHex`); the empty string is the sole case
where Python raises instead. -/
theorem hexToNat_bytesToHex (bs : Bytes) (hbs : ∀ x ∈ bs, x < 256) (hne : bs ≠ []) :
    hexToNat? (bytesToHex bs) = some (bytesToNat bs) := by
  have hbne : bytesToHex bs ≠ [] := by
    cases bs with
    | nil => exact absurd rfl hne
    | cons b r => simp [bytesToHex]
  rw [hexToNat?, if_neg (by simpa [List.isEmpty_iff] using hbne)]
  have h := bytesToHex_foldl _ rfl bs hbs 0
  simpa using h

theorem utf8encode_ascii (s : Str) (hs : ∀ c ∈ s, c < 128) : utf8encode s = s := by
  induction s with
  | nil => rfl
  | cons c r ih =>
    have hc : c < 128 := hs c (by simp)
    rw [utf8encode, utf8encodeChar, if_pos hc, ih (fun x hx => hs x (by simp [hx]))]
    rfl

theorem utf8dec_ascii (s : Bytes) (hs : ∀ c ∈ s, c < 128) : utf8dec s 0 0 0 = some s := by
  induction s with
  | nil => rfl
  | cons c r ih =>
    have hc : c < 128 := hs c (by simp)
    rw [utf8dec, if_pos hc, ih (fun x hx => hs x (by simp [hx]))]
    rfl

theorem utf8decode_ascii (s : Bytes) (hs : ∀ c ∈ s, c < 128) : utf8decode s = some s :=
  utf8dec_ascii s hs

theorem dropWhile_replicate_append (p : Nat → Bool) (a : Nat) (hp : p a = true) (s : Nat)
    (l : List Nat) : List.dropWhile p (List.replicate s a ++ l) = List.dropWhile p l := by
  induction s with
  | zero => rfl
  | succ m ih => simp [List.replicate_succ, List.dropWhile_cons, hp, ih]

theorem rstripZeros_append_zeros (val : Str) (s : Nat) (hlast : val.getLast? ≠ some 48) :
    rstripZeros (val ++ List.replicate s 48) = val := by
  rw [rstripZeros, List.reverse_append, List.reverse_replicate,
    dropWhile_replicate_append _ 48 (by simp) s val.reverse]
  rcases h : val.reverse with _ | ⟨y, ys⟩
  · have : val = [] := by simpa using congrArg List.reverse h
    simp [this]
  · have hy : val.getLast? = some y := by
      rw [← List.head?_reverse, h]
      rfl
    have hy48 : (y == 48) = false := by
      simp only [beq_eq_false_iff_ne, ne_eq]
      intro hcon
      exact hlast (hy.trans (by rw [hcon]))
    rw [List.dropWhile_cons, hy48]
    simp [← h]

theorem pySliceNeg_append_replicate (val : Str) (s : Nat) (hs : 1 ≤ s) :
    pySliceNeg (val ++ List.replicate s 48) s = List.replicate s 48 := by
  rw [pySliceNeg, if_neg (by omega)]
  have e : (val ++ List.replicate s 48).length - s = val.length := by simp
  rw [e, List.drop_left]

/-- The digital locker round trip on values the program actually locks: an
ASCII value whose first character is at least `0x10` and whose last character
is not `'0'`, with at least one trailing-zero check character. -/
theorem unlock_lock (H : Str → Bytes → Nat) (nb : Bytes) (key val : Str) (s : Nat)
    (alg : AlgArg) (hA : ∀ c ∈ val, c < 128) (hne : val ≠ [])
    (hhd : 16 ≤ val.headI) (hlast : val.getLast? ≠ some 48) (hs : 1 ≤ s) :
    unlock H key [(lock H nb key val s alg).1, (lock H nb key val s alg).2] s alg
      = .ok (some val) := by
  obtain ⟨b, rest, rfl⟩ : ∃ b rest, val = b :: rest := by
    rcases val with _ | ⟨b, rest⟩
    · exact absurd rfl hne
    · exact ⟨b, rest, rfl⟩
  have hb : 16 ≤ b := hhd
  set padded := (b :: rest) ++ List.replicate s 48 with hpadded
  have hpA : ∀ c ∈ padded, c < 128 := by
    intro c hc
    rw [hpadded, List.mem_append] at hc
    rcases hc with hc | hc
    · exact hA c hc
    · have := List.eq_of_mem_replicate hc
      omega
  have hp256 : ∀ c ∈ padded, c < 256 := fun c hc => lt_trans (hpA c hc) (by omega)
  have hencode : utf8encode padded = padded := utf8encode_ascii padded hpA
  have hxor : ∀ d : Nat, d ^^^ (d ^^^ bytesToNat padded) = bytesToNat padded := by
    intro d
    rw [← Nat.xor_assoc, Nat.xor_self, Nat.zero_xor]
  have hrest256 : ∀ x ∈ rest ++ List.replicate s 48, x < 256 := by
    intro x hx
    exact hp256 x (by simp only [hpadded, List.cons_append]; exact List.mem_cons_of_mem b hx)
  have hpyhex : pyHex (bytesToNat padded) = bytesToHex padded := by
    have : padded = b :: (rest ++ List.replicate s 48) := by simp [hpadded]
    rw [this]
    exact pyHex_bytesToNat hb (lt_trans (hpA b (by simp [hpadded])) (by omega)) hrest256
  simp only [lock, unlock]
  rw [hencode]
  simp only [hexToNat_pyHex, hxor, hpyhex, fromhex_bytesToHex padded hp256, Option.some_bind,
    utf8decode_ascii padded hpA]
  rw [hpadded, pySliceNeg_append_replicate _ s hs, if_pos rfl,
    rstripZeros_append_zeros _ s hlast]

end Canetti

namespace Canetti

theorem toHexDigit_lt : ∀ d, d < 16 → toHexDigit d < 128 := by decide

theorem escByte_ascii (q b : Nat) (hq : q < 128) (hb : b < 256) : ∀ c ∈ escByte q b, c < 128 := by
  intro c hc
  rw [escByte] at hc
  split_ifs at hc <;>
    simp only [List.mem_cons, List.mem_singleton, List.not_mem_nil, or_false] at hc
  · rcases hc with rfl | rfl <;> omega
  · rcases hc with rfl | rfl <;> omega
  · rcases hc with rfl | rfl <;> omega
  · rcases hc with rfl | rfl <;> omega
  · rcases hc with rfl | rfl <;> omega
  · subst hc; omega
  · rcases hc with rfl | rfl | rfl | rfl
    · omega
    · omega
    · exact toHexDigit_lt _ (by omega)
    · exact toHexDigit_lt _ (by omega)

theorem escBytes_ascii (q : Nat) (hq : q < 128) (bs : Bytes) (hbs : ∀ b ∈ bs, b < 256) :
    ∀ c ∈ escBytes q bs, c < 128 := by
  induction bs with
  | nil => intro c hc; exact absurd hc (by simp [escBytes])
  | cons b r ih =>
    intro c hc
    rw [escBytes, List.mem_append] at hc
    rcases hc with hc | hc
    · exact escByte_ascii q b hq (hbs b (by simp)) c hc
    · exact ih (fun x hx => hbs x (by simp [hx])) c hc

theorem reprQuote_lt (bs : Bytes) : reprQuote bs < 128 := by
  rw [reprQuote]; split <;> omega

theorem reprQuote_ne (bs : Bytes) : reprQuote bs ≠ 48 := by
  rw [reprQuote]; split <;> omega

theorem reprBytes_ascii (bs : Bytes) (hbs : ∀ b ∈ bs, b < 256) :
    ∀ c ∈ reprBytes bs, c < 128 := by
  intro c hc
  rw [reprBytes] at hc
  simp only [List.mem_cons, List.cons_append, List.mem_append, List.mem_singleton,
    List.not_mem_nil, or_false] at hc
  rcases hc with rfl | rfl | hc | rfl
  · omega
  · exact reprQuote_lt bs
  · exact escBytes_ascii _ (reprQuote_lt bs) bs hbs c hc
  · exact reprQuote_lt bs

theorem reprBytes_ne_nil (bs : Bytes) : reprBytes bs ≠ [] := by
  rw [reprBytes]; simp

theorem reprBytes_headI (bs : Bytes) : (reprBytes bs).headI = 98 := rfl

theorem reprBytes_getLast? (bs : Bytes) :
    (reprBytes bs).getLast? = some (reprQuote bs) := by
  have e : reprBytes bs
      = (98 :: reprQuote bs :: escBytes (reprQuote bs) bs) ++ [reprQuote bs] := rfl
  rw [e, List.getLast?_concat]

theorem escByte_length (q b : Nat) : 1 ≤ (escByte q b).length := by
  rw [escByte]; split_ifs <;> simp

theorem escBytes_length (q : Nat) (bs : Bytes) : bs.length ≤ (escBytes q bs).length := by
  induction bs with
  | nil => simp [escBytes]
  | cons b r ih =>
    rw [escBytes, List.length_append]
    have := escByte_length q b
    simp only [List.length_cons]
    omega

theorem reprBytes_length (bs : Bytes) : bs.length + 3 ≤ (reprBytes bs).length := by
  rw [reprBytes]
  simp only [List.length_cons, List.cons_append, List.length_append, List.length_singleton]
  have := escBytes_length (reprQuote bs) bs
  omega

theorem set_l_eq_zero_of_guard {n k : ℤ} {t delta : ℝ}
    (h : n < 2 ∨ k < 1 ∨ t < 1 ∨ delta < 0 ∨ delta > 1) : set_l n k t delta = 0 := by
  rw [set_l, if_pos h]

theorem set_l_valid {n k : ℤ} {t delta : ℝ} (h : 0 < set_l n k t delta) :
    2 ≤ n ∧ 1 ≤ k ∧ 1 ≤ t ∧ 0 ≤ delta ∧ delta ≤ 1 := by
  have hg : ¬(n < 2 ∨ k < 1 ∨ t < 1 ∨ delta < 0 ∨ delta > 1) := by
    intro hg
    rw [set_l_eq_zero_of_guard hg] at h
    exact lt_irrefl 0 h
  push_neg at hg
  obtain ⟨h1, h2, h3, h4, h5⟩ := hg
  exact ⟨h1, h2, h3, h4, h5⟩

theorem set_l_nonneg (n k : ℤ) (t delta : ℝ) : 0 ≤ set_l n k t delta := by
  rw [set_l]
  split
  · exact le_refl 0
  · rename_i hg
    push_neg at hg
    obtain ⟨h1, h2, h3, h4, h5⟩ := hg
    have hlogb : 0 ≤ Real.logb 2 (4 / delta) := by
      rcases eq_or_lt_of_le h4 with heq | hpos
      · rw [← heq, div_zero, Real.logb_zero]
      · apply Real.logb_nonneg (by norm_num)
        rw [le_div_iff hpos]
        linarith
    have hn0 : (0:ℝ) ≤ (n : ℝ) := by
      have : (2:ℝ) ≤ (n : ℝ) := by exact_mod_cast h1
      linarith
    have hpow : (0:ℝ) ≤ (n : ℝ) ^ (⌈(t * (k : ℝ)) / ((n : ℝ) * Real.log (n : ℝ))⌉ : ℤ) :=
      zpow_nonneg hn0 _
    have hx : (0:ℝ) ≤ (n : ℝ) ^ (⌈(t * (k : ℝ)) / ((n : ℝ) * Real.log (n : ℝ))⌉ : ℤ) *
        Real.logb 2 (4 / delta) := mul_nonneg hpow hlogb
    rw [pyInt, if_pos hx]
    exact Int.floor_nonneg.mpr hx

theorem subFrom_eq (w ji : List Nat) :
    ∀ cnt start,
      (∀ j, j < cnt → ∃ ix, ji.get? (start + j) = some ix ∧ ix < w.length) →
      subFrom w ji start cnt
        = some ((List.range cnt).map fun j => w.getD (ji.getD (start + j) 0) 0) := by
  intro cnt
  induction cnt with
  | zero => intro start h; rfl
  | succ m ih =>
    intro start h
    obtain ⟨ix, hix, hlt⟩ := h 0 (Nat.succ_pos m)
    rw [Nat.add_zero] at hix
    have hwd : w.getD ix 0 = w.get ⟨ix, hlt⟩ := List.getD_eq_get w 0 hlt
    have hw : w.get? ix = some (w.getD ix 0) := by
      rw [hwd]
      exact List.get?_eq_get hlt
    have hji : ji.getD start 0 = ix := by
      rw [List.getD_eq_getD_get?, hix]
      rfl
    rw [subFrom]
    simp only [hix, hw, ih (start + 1) (fun j hj => by
      have := h (j + 1) (by omega)
      rwa [show start + (j + 1) = start + 1 + j by omega] at this)]
    rw [List.range_succ_eq_map, List.map_cons, List.map_map]
    simp only [Nat.add_zero, hji]
    have harg : ((fun j => w.getD (ji.getD (start + j) 0) 0) ∘ Nat.succ)
        = fun j => w.getD (ji.getD (start + 1 + j) 0) 0 := by
      funext j
      simp only [Function.comp_apply]
      have e : start + Nat.succ j = start + 1 + j := by omega
      rw [e]
    rw [harg]
    rfl

end Canetti

namespace Canetti

theorem rep_genEntry (H : Str → Bytes → Nat) (w : List Nat) (k : Nat) (r : Str)
    (ir : Nat → Nat → Nat) (nr : Nat → Bytes) (i : Nat) (rest : List PEntry)
    (hn : 0 < w.length) (hA : ∀ c ∈ r, c < 128) (hne : r ≠ [])
    (hhd : 16 ≤ r.headI) (hlast : r.getLast? ≠ some 48) :
    rep H k w (genEntry H w k r ir nr i :: rest) = .ok (some r) := by
  have hsub : subpattern? w ((List.range k).map fun j => ir i j % w.length) k
      = some ((List.range k).map fun j =>
          w.getD ((((List.range k).map fun j2 => ir i j2 % w.length)).getD j 0) 0) := by
    rw [subpattern?, subFrom_eq w _ k 0 (fun j hj => by
      refine ⟨ir i j % w.length, ?_, Nat.mod_lt _ hn⟩
      rw [Nat.zero_add, List.get?_map, List.get?_range hj]
      rfl)]
    simp only [Nat.zero_add]
  have hunlock := unlock_lock H (nr i)
    (strOfBits ((List.range k).map fun j =>
      w.getD ((((List.range k).map fun j2 => ir i j2 % w.length)).getD j 0) 0))
    r 16 (.str (strLit "sha-256")) hA hne hhd hlast (by omega)
  have hEmpty : r.isEmpty = false := by
    cases r with
    | nil => exact absurd rfl hne
    | cons a l => rfl
  simp only [genEntry, rep, repAttempt, hsub, hunlock, hEmpty]
  simp

theorem rep_first_truthy (H : Str → Bytes → Nat) (kG : Nat) (wprime : List Nat) :
    ∀ p : List PEntry,
      (∀ e ∈ p, ∃ c ji, e = PEntry.pair c ji ∧ repAttempt H kG wprime c ji ≠ .error ()) →
      rep H kG wprime p = .ok (p.findSome? fun e => truthy (attemptResult H kG wprime e)) := by
  intro p
  induction p with
  | nil => intro h; rfl
  | cons e rest ih =>
    intro h
    obtain ⟨c, ji, he, hok⟩ := h e (by simp)
    subst he
    have hrest := ih (fun x hx => h x (by simp [hx]))
    rcases hres : repAttempt H kG wprime c ji with he | o
    · cases he
      exact absurd hres hok
    · rw [rep, hres]
      rcases o with _ | riv
      · rw [hrest]
        simp [List.findSome?, attemptResult, hres, truthy]
      · rcases hriv : riv.isEmpty with _ | _
        · simp only [hriv, Bool.false_eq_true, if_false]
          simp [List.findSome?, attemptResult, hres, truthy, hriv]
        · simp only [hriv, if_true]
          have hrnil : riv = [] := by
            cases riv with
            | nil => rfl
            | cons a l => exact absurd hriv (by simp)
          subst hrnil
          rw [hrest]
          simp [List.findSome?, attemptResult, hres, truthy]

end Canetti

namespace Canetti

theorem set_l_value_nonneg {n k : ℤ} {t delta : ℝ} (hn : 2 ≤ n) (hd0 : 0 ≤ delta)
    (hd1 : delta ≤ 1) :
    0 ≤ (n : ℝ) ^ (⌈(t * (k : ℝ)) / ((n : ℝ) * Real.log (n : ℝ))⌉ : ℤ) *
      Real.logb 2 (4 / delta) := by
  have hlogb : 0 ≤ Real.logb 2 (4 / delta) := by
    rcases eq_or_lt_of_le hd0 with heq | hpos
    · rw [← heq, div_zero, Real.logb_zero]
    · apply Real.logb_nonneg (by norm_num)
      rw [le_div_iff hpos]
      linarith
  have hn0 : (0:ℝ) ≤ (n : ℝ) := by
    have : (2:ℝ) ≤ (n : ℝ) := by exact_mod_cast hn
    linarith
  exact mul_nonneg (zpow_nonneg hn0 _) hlogb

theorem ceil_ratio_one :
    (⌈((1:ℝ) * (((1:ℤ)):ℝ)) / ((((2:ℤ)):ℝ) * Real.log (((2:ℤ)):ℝ))⌉ : ℤ) = 1 := by
  have hlog9 := Real.log_two_gt_d9
  have hlogpos : (0:ℝ) < Real.log 2 := Real.log_pos (by norm_num)
  have e : ((1:ℝ) * (((1:ℤ)):ℝ)) / ((((2:ℤ)):ℝ) * Real.log (((2:ℤ)):ℝ))
      = 1 / (2 * Real.log 2) := by
    push_cast
    ring_nf
  have hpos : (0:ℝ) < 2 * Real.log 2 := by nlinarith
  rw [e, Int.ceil_eq_iff]
  constructor
  · push_cast
    have h0 : (0:ℝ) < 1 / (2 * Real.log 2) := div_pos one_pos hpos
    linarith
  · push_cast
    rw [div_le_one hpos]
    nlinarith

theorem logb_two_four : Real.logb 2 4 = 2 := by
  rw [show (4:ℝ) = 2 ^ (2:ℕ) by norm_num, Real.logb_pow, Real.logb_self_eq_one (by norm_num)]
  norm_num

theorem set_l_2111 : set_l 2 1 1 1 = 4 := by
  rw [set_l, if_neg (by push_neg; norm_num)]
  rw [ceil_ratio_one, pyInt]
  have e : (((2:ℤ)):ℝ) ^ (1:ℤ) * Real.logb 2 (4 / 1) = 4 := by
    rw [show ((4:ℝ) / 1) = 4 by norm_num, logb_two_four, zpow_one]
    norm_num
  rw [e, if_pos (by norm_num)]
  norm_num

theorem logb_two_five_lt : Real.logb 2 5 < 5 / 2 := by
  rw [Real.logb_lt_iff_lt_rpow (by norm_num) (by norm_num)]
  set X := (2:ℝ) ^ ((5:ℝ) / 2) with hX
  have hXpos : 0 < X := Real.rpow_pos_of_pos (by norm_num) _
  have hXsq : X ^ (2:ℕ) = 32 := by
    rw [hX, ← Real.rpow_natCast ((2:ℝ) ^ ((5:ℝ)/2)) 2, ← Real.rpow_mul (by norm_num)]
    norm_num
  nlinarith

theorem lt_logb_two_five : 2 < Real.logb 2 5 := by
  have h := Real.logb_lt_logb (b := 2) (by norm_num) (show (0:ℝ) < 4 by norm_num)
    (show (4:ℝ) < 5 by norm_num)
  rw [logb_two_four] at h
  exact h

theorem set_l_2114_5 : set_l 2 1 1 (4/5) = 4 := by
  rw [set_l, if_neg (by push_neg; norm_num)]
  rw [ceil_ratio_one, pyInt]
  have e : (((2:ℤ)):ℝ) ^ (1:ℤ) * Real.logb 2 (4 / (4/5)) = 2 * Real.logb 2 5 := by
    rw [show ((4:ℝ) / (4/5)) = 5 by norm_num, zpow_one]
    norm_num
  rw [e, if_pos (by nlinarith [lt_logb_two_five])]
  rw [Int.floor_eq_iff]
  constructor
  · push_cast
    nlinarith [lt_logb_two_five]
  · push_cast
    nlinarith [logb_two_five_lt]

theorem ceil_formula_2114_5 :
    (⌈(((2:ℤ)):ℝ) ^ ((⌈((1:ℝ) * (((1:ℤ)):ℝ)) / ((((2:ℤ)):ℝ) * Real.log (((2:ℤ)):ℝ))⌉ : ℤ)) *
        Real.logb 2 (4 / (4/5))⌉ : ℤ) = 5 := by
  rw [ceil_ratio_one]
  have e : (((2:ℤ)):ℝ) ^ (1:ℤ) * Real.logb 2 (4 / (4/5)) = 2 * Real.logb 2 5 := by
    rw [show ((4:ℝ) / (4/5)) = 5 by norm_num, zpow_one]
    norm_num
  rw [e, Int.ceil_eq_iff]
  constructor
  · push_cast
    nlinarith [lt_logb_two_five]
  · push_cast
    nlinarith [logb_two_five_lt]

end Canetti

namespace Canetti

/-- A trivial concrete hash function, used to instantiate the abstract hash
parameter in concrete witnesses and counterexamples. -/
def hashZero : Str → Bytes → Nat := fun _ _ => 0

/-- C1: for every reading `w` and parameters `k`, `t`, `delta` with
`computeLockerCount(n, k, t, delta) > 0`, if `gen(w, k, t, delta)` returns
`(key, helperData)`, then `rep(w, helperData)` returns that same key:
reproduction on the unchanged reading always succeeds and recovers the
original key.  The randomness of `gen` (`keyBytes`, `idxRand`, `nonceRand`)
is explicit; `keyBytes` ranges over byte values as `secrets.token_bytes`
guarantees. -/
theorem C1_exact_match_reproduction (H : Str → Bytes → Nat) (w : List Nat) (k : Nat)
    (t delta : ℝ) (keyBytes : Bytes) (idxRand : Nat → Nat → Nat) (nonceRand : Nat → Bytes)
    (hkb : ∀ b ∈ keyBytes, b < 256)
    (hl : 0 < set_l w.length k t delta) :
    rep H k w (gen H w k t delta keyBytes idxRand nonceRand).2
      = .ok (some (gen H w k t delta keyBytes idxRand nonceRand).1) := by
  obtain ⟨hn2, -, -, -, -⟩ := set_l_valid hl
  have hn : 0 < w.length := by
    have h0 : (0:ℤ) < (w.length : ℤ) := lt_of_lt_of_le (by norm_num) hn2
    exact_mod_cast h0
  have hgen1 : (gen H w k t delta keyBytes idxRand nonceRand).1 = reprBytes keyBytes := rfl
  have hgen2 : (gen H w k t delta keyBytes idxRand nonceRand).2
      = (List.range ((set_l w.length k t delta).toNat)).map
          (genEntry H w k (reprBytes keyBytes) idxRand nonceRand) := rfl
  have hL : 0 < (set_l w.length k t delta).toNat := by omega
  obtain ⟨m, hm⟩ : ∃ m, (set_l w.length k t delta).toNat = m + 1 :=
    ⟨(set_l w.length k t delta).toNat - 1, by omega⟩
  rw [hgen1, hgen2, hm, List.range_succ_eq_map, List.map_cons]
  exact rep_genEntry H w k (reprBytes keyBytes) idxRand nonceRand 0 _ hn
    (reprBytes_ascii keyBytes hkb) (reprBytes_ne_nil keyBytes)
    (by rw [reprBytes_headI]; norm_num)
    (by
      rw [reprBytes_getLast?]
      intro hcon
      exact reprQuote_ne keyBytes (Option.some_injective _ hcon))

/-- Witness for C1 at `w = [0, 1]`, `k = 1`, `t = 1`, `delta = 1`, with key
byte `0` and constant randomness: the positivity hypothesis holds and the
reproduced key equals the generated key. -/
theorem C1_witness :
    0 < set_l 2 1 1 1 ∧
    rep hashZero 1 [0, 1] (gen hashZero [0, 1] 1 1 1 [0] (fun _ _ => 0) (fun _ => [])).2
      = .ok (some (gen hashZero [0, 1] 1 1 1 [0] (fun _ _ => 0) (fun _ => [])).1) := by
  have h : 0 < set_l 2 1 1 1 := by rw [set_l_2111]; norm_num
  exact ⟨h, C1_exact_match_reproduction hashZero [0, 1] 1 1 1 [0] (fun _ _ => 0) (fun _ => [])
    (by decide) h⟩

/-- C2 counterexample: the round trip fails as universally stated.  Locking
the value `"10"` (code points `[49, 48]`) with `s = 1` and unlocking with the
same key returns `"1"`, not `"10"`: `rstrip("0")` also removes the trailing
zero belonging to the value itself. -/
theorem C2_counterexample :
    unlock hashZero [] [(lock hashZero [] [] [49, 48] 1 (.str (strLit "sha256"))).1,
        (lock hashZero [] [] [49, 48] 1 (.str (strLit "sha256"))).2] 1 (.str (strLit "sha256"))
      ≠ .ok (some [49, 48]) := by decide

/-- C2 (amended): the digital-locker round trip
`unlock(key, lock(key, value, s, alg), s, alg) = value` holds for every key,
every `s ≥ 1`, and every hash algorithm identifier whose effective selection
is not one of the extendable-output algorithms `shake_128`/`shake_256` (for
those two members of `algorithms_guaranteed` the source's bare `hexdigest()`
call raises `TypeError`, so `lock` itself raises), for values that are
nonempty ASCII strings whose first character has code point at least 16 and
whose last character is not `'0'`. -/
theorem C2_round_trip_amended (H : Str → Bytes → Nat) (nb : Bytes) (key val : Str)
    (s : Nat) (alg : AlgArg) (hxof : selectAlg alg ∉ xofAlgorithms)
    (hA : ∀ c ∈ val, c < 128) (hne : val ≠ [])
    (hhd : 16 ≤ val.headI) (hlast : val.getLast? ≠ some 48) (hs : 1 ≤ s) :
    unlock H key [(lock H nb key val s alg).1, (lock H nb key val s alg).2] s alg
      = .ok (some val) :=
  unlock_lock H nb key val s alg hA hne hhd hlast hs

/-- Witness for the amended C2 at `val = "1"`, `s = 1`, `alg = "sha256"`
(whose selection is not an extendable-output algorithm). -/
theorem C2_round_trip_witness :
    selectAlg (.str (strLit "sha256")) ∉ xofAlgorithms ∧
    (∀ c ∈ ([49] : Str), c < 128) ∧ ([49] : Str) ≠ [] ∧ 16 ≤ ([49] : Str).headI ∧
    ([49] : Str).getLast? ≠ some 48 ∧ 1 ≤ 1 ∧
    unlock hashZero [] [(lock hashZero [] [] [49] 1 (.str (strLit "sha256"))).1,
        (lock hashZero [] [] [49] 1 (.str (strLit "sha256"))).2] 1 (.str (strLit "sha256"))
      = .ok (some [49]) :=
  ⟨by decide, by decide, by decide, by decide, by decide, le_refl 1,
    C2_round_trip_amended hashZero [] [] [49] 1 (.str (strLit "sha256")) (by decide) (by decide)
      (by decide) (by decide) (by decide) (by decide)⟩

/-- C3 counterexample: a malformed (wrong-arity) entry does not merely skip.
With a malformed first entry, `rep` returns `None` even though the very next
entry unlocks successfully (second conjunct: the same entry alone reproduces
`"1"`), so reproduction aborts rather than continuing. -/
theorem C3_counterexample :
    rep hashZero 1 [1]
        [PEntry.badTuple 3,
         PEntry.pair [(lock hashZero [] (strOfBits [1]) [49] 16 (.str (strLit "sha-256"))).1,
           (lock hashZero [] (strOfBits [1]) [49] 16 (.str (strLit "sha-256"))).2] [0]]
      = .ok none ∧
    rep hashZero 1 [1]
        [PEntry.pair [(lock hashZero [] (strOfBits [1]) [49] 16 (.str (strLit "sha-256"))).1,
           (lock hashZero [] (strOfBits [1]) [49] 16 (.str (strLit "sha-256"))).2] [0]]
      = .ok (some [49]) := by
  constructor
  · rfl
  · decide

/-- C3 (amended): a malformed helper-data entry (a tuple whose unpacking
raises `ValueError`) makes `rep` print a message and return `None`
immediately, aborting the whole reproduction regardless of the remaining
entries. -/
theorem C3_malformed_aborts (H : Str → Bytes → Nat) (kG : Nat) (wprime : List Nat)
    (a : Nat) (rest : List PEntry) :
    rep H kG wprime (PEntry.badTuple a :: rest) = .ok none := rfl

/-- C5 counterexample: `rep` does not return the first successful unlock
result.  An entry locking the empty string unlocks successfully (first
conjunct), but `rep` treats the empty string as falsy (`if ri:`) and returns
`None` (second conjunct). -/
theorem C5_counterexample :
    unlock hashZero (strOfBits [1])
        [(lock hashZero [] (strOfBits [1]) [] 16 (.str (strLit "sha-256"))).1,
         (lock hashZero [] (strOfBits [1]) [] 16 (.str (strLit "sha-256"))).2] 16
        (.str (strLit "sha-256")) = .ok (some []) ∧
    rep hashZero 1 [1]
        [PEntry.pair [(lock hashZero [] (strOfBits [1]) [] 16 (.str (strLit "sha-256"))).1,
           (lock hashZero [] (strOfBits [1]) [] 16 (.str (strLit "sha-256"))).2] [0]]
      = .ok none := by
  constructor
  · decide
  · decide

/-- C5 (amended): over well-formed pair entries whose attempts do not raise,
`rep` traverses the entries in stored order (selecting each sub-pattern with
the ambient global `k`), returns the first unlock result that is a nonempty
(truthy) string, and returns `None` exactly when no entry yields a nonempty
unlock result. -/
theorem C5_rep_first_truthy (H : Str → Bytes → Nat) (kG : Nat) (wprime : List Nat)
    (p : List PEntry)
    (hwf : ∀ e ∈ p, ∃ c ji, e = PEntry.pair c ji ∧ repAttempt H kG wprime c ji ≠ .error ()) :
    rep H kG wprime p = .ok (p.findSome? fun e => truthy (attemptResult H kG wprime e)) :=
  rep_first_truthy H kG wprime p hwf

/-- Witness for the amended C5 on a concrete two-entry helper list: the first
entry unlocks to the empty string and is passed over, the second unlocks to
`"1"` and is returned. -/
theorem C5_witness :
    (∀ e ∈ [PEntry.pair [(lock hashZero [] (strOfBits [1]) [] 16 (.str (strLit "sha-256"))).1,
          (lock hashZero [] (strOfBits [1]) [] 16 (.str (strLit "sha-256"))).2] [0],
        PEntry.pair [(lock hashZero [] (strOfBits [1]) [49] 16 (.str (strLit "sha-256"))).1,
          (lock hashZero [] (strOfBits [1]) [49] 16 (.str (strLit "sha-256"))).2] [0]],
      ∃ c ji, e = PEntry.pair c ji ∧ repAttempt hashZero 1 [1] c ji ≠ .error ()) ∧
    rep hashZero 1 [1]
        [PEntry.pair [(lock hashZero [] (strOfBits [1]) [] 16 (.str (strLit "sha-256"))).1,
          (lock hashZero [] (strOfBits [1]) [] 16 (.str (strLit "sha-256"))).2] [0],
        PEntry.pair [(lock hashZero [] (strOfBits [1]) [49] 16 (.str (strLit "sha-256"))).1,
          (lock hashZero [] (strOfBits [1]) [49] 16 (.str (strLit "sha-256"))).2] [0]]
      = .ok
        ([PEntry.pair [(lock hashZero [] (strOfBits [1]) [] 16 (.str (strLit "sha-256"))).1,
          (lock hashZero [] (strOfBits [1]) [] 16 (.str (strLit "sha-256"))).2] [0],
        PEntry.pair [(lock hashZero [] (strOfBits [1]) [49] 16 (.str (strLit "sha-256"))).1,
          (lock hashZero [] (strOfBits [1]) [49] 16 (.str (strLit "sha-256"))).2] [0]].findSome?
          fun e => truthy (attemptResult hashZero 1 [1] e)) := by
  have hwf : ∀ e ∈ [PEntry.pair [(lock hashZero [] (strOfBits [1]) [] 16 (.str (strLit "sha-256"))).1,
          (lock hashZero [] (strOfBits [1]) [] 16 (.str (strLit "sha-256"))).2] [0],
        PEntry.pair [(lock hashZero [] (strOfBits [1]) [49] 16 (.str (strLit "sha-256"))).1,
          (lock hashZero [] (strOfBits [1]) [49] 16 (.str (strLit "sha-256"))).2] [0]],
      ∃ c ji, e = PEntry.pair c ji ∧ repAttempt hashZero 1 [1] c ji ≠ .error () := by
    intro e he
    simp only [List.mem_cons, List.not_mem_nil, or_false] at he
    rcases he with rfl | rfl
    · exact ⟨_, _, rfl, by decide⟩
    · exact ⟨_, _, rfl, by decide⟩
  exact ⟨hwf, C5_rep_first_truthy hashZero 1 [1] _ hwf⟩

/-- C4 counterexample: at `n = 2`, `k = 1`, `t = 1`, `delta = 4/5`, the value
`n^ceil((t*k)/(n*ln n)) * log2(4/delta) = 2*log2 5` lies strictly between 4
and 5; the code (`int()`, i.e. truncation) returns 4 while the claimed
ceiling is 5. -/
theorem C4_counterexample :
    set_l 2 1 1 (4/5)
      ≠ ⌈(((2:ℤ)):ℝ) ^ ((⌈((1:ℝ) * (((1:ℤ)):ℝ)) / ((((2:ℤ)):ℝ) * Real.log (((2:ℤ)):ℝ))⌉ : ℤ)) *
          Real.logb 2 (4 / (4/5))⌉ := by
  rw [set_l_2114_5, ceil_formula_2114_5]
  norm_num

/-- C4 (amended): for `n ≥ 2`, `k ≥ 1`, `t ≥ 1` and `0 < delta ≤ 1`,
`computeLockerCount` returns the floor (Python `int()` truncation) of
`n^ceil((t*k)/(n*ln n)) * log2(4/delta)`, not the ceiling.  (`delta = 0`
passes the guard but raises `ZeroDivisionError` in the source, so it is
excluded.) -/
theorem C4_floor_amended (n k : ℤ) (t delta : ℝ) (hn : 2 ≤ n) (hk : 1 ≤ k) (ht : 1 ≤ t)
    (hd0 : 0 < delta) (hd1 : delta ≤ 1) :
    set_l n k t delta
      = ⌊(n : ℝ) ^ (⌈(t * (k : ℝ)) / ((n : ℝ) * Real.log (n : ℝ))⌉ : ℤ) *
          Real.logb 2 (4 / delta)⌋ := by
  rw [set_l, if_neg (by push_neg; exact ⟨hn, hk, ht, le_of_lt hd0, hd1⟩), pyInt,
    if_pos (set_l_value_nonneg hn (le_of_lt hd0) hd1)]

/-- Witness for the amended C4 at `n = 2`, `k = 1`, `t = 1`, `delta = 1`. -/
theorem C4_witness :
    ((2:ℤ) ≤ 2 ∧ (1:ℤ) ≥ 1 ∧ (1:ℝ) ≥ 1 ∧ (0:ℝ) < 1 ∧ (1:ℝ) ≤ 1) ∧
    set_l 2 1 1 1
      = ⌊(((2:ℤ)):ℝ) ^ (⌈((1:ℝ) * (((1:ℤ)):ℝ)) / ((((2:ℤ)):ℝ) * Real.log (((2:ℤ)):ℝ))⌉ : ℤ) *
          Real.logb 2 (4 / 1)⌋ :=
  ⟨⟨le_refl 2, le_refl 1, le_refl 1, by norm_num, le_refl 1⟩,
    C4_floor_amended 2 1 1 1 (le_refl 2) (le_refl 1) (le_refl 1) (by norm_num) (le_refl 1)⟩

/-- C6: `computeLockerCount` returns 0 whenever `n < 2` or `k < 1` or `t < 1`
or `delta < 0` or `delta > 1`, and in particular on the four degenerate
inputs listed in the spec. -/
theorem C6_degenerate_params :
    (∀ (n k : ℤ) (t delta : ℝ), (n < 2 ∨ k < 1 ∨ t < 1 ∨ delta < 0 ∨ delta > 1) →
      set_l n k t delta = 0) ∧
    set_l 1 80 31 0.0036 = 0 ∧ set_l 1024 0 31 0.0036 = 0 ∧
    set_l 1024 80 31 (-0.1) = 0 ∧ set_l 1024 80 31 1.5 = 0 := by
  refine ⟨fun n k t delta h => set_l_eq_zero_of_guard h, ?_, ?_, ?_, ?_⟩
  · exact set_l_eq_zero_of_guard (Or.inl (by norm_num))
  · exact set_l_eq_zero_of_guard (Or.inr (Or.inl (by norm_num)))
  · exact set_l_eq_zero_of_guard (Or.inr (Or.inr (Or.inr (Or.inl (by norm_num)))))
  · exact set_l_eq_zero_of_guard (Or.inr (Or.inr (Or.inr (Or.inr (by norm_num)))))

/-- Witness for C6's universally quantified part at `n = 1`. -/
theorem C6_witness :
    ((1:ℤ) < 2 ∨ (80:ℤ) < 1 ∨ (31:ℝ) < 1 ∨ (0.0036:ℝ) < 0 ∨ (0.0036:ℝ) > 1) ∧
    set_l 1 80 31 0.0036 = 0 :=
  ⟨Or.inl (by norm_num), C6_degenerate_params.1 1 80 31 0.0036 (Or.inl (by norm_num))⟩

/-- C7 counterexample: a malformed two-element `c` whose cipher component
`"z"` is not a hexadecimal numeral makes `unlock` raise an uncaught
`ValueError` (from `int(xor_val, 16)`), contradicting "never raises". -/
theorem C7_counterexample :
    unlock hashZero [] [[], [122]] 16 (.str (strLit "sha256")) = .error () := rfl

/-- C7 (amended): `unlock` returns the failure value `None` without raising
for every tuple `c` of arity other than 2 (the unpacking `ValueError` is
caught); a 2-tuple whose cipher does not parse as hexadecimal instead raises
an uncaught `ValueError`. -/
theorem C7_wrong_arity_returns_none (H : Str → Bytes → Nat) (key : Str) (c : List Str)
    (s : Nat) (alg : AlgArg) (h : c.length ≠ 2) :
    unlock H key c s alg = .ok none := by
  rcases c with _ | ⟨a, _ | ⟨b, _ | ⟨x, r⟩⟩⟩
  · rfl
  · rfl
  · exact absurd rfl h
  · rfl

/-- Witness for the amended C7 with the empty tuple. -/
theorem C7_witness :
    ([] : List Str).length ≠ 2 ∧
    unlock hashZero [] [] 16 (.str (strLit "sha256")) = .ok none :=
  ⟨by decide, C7_wrong_arity_returns_none hashZero [] [] 16 (.str (strLit "sha256")) (by decide)⟩

/-- C8 counterexample: at `k = 8` with key byte `0`, the key returned by
`gen` is the string `str(b'\x00')` of length 7, not a byte string of
`k / 8 = 1` byte. -/
theorem C8_counterexample :
    ((gen hashZero [0, 1] 8 1 1 [0] (fun _ _ => 0) (fun _ => [])).1).length ≠ 8 / 8 := by
  show (reprBytes [0]).length ≠ 1
  decide

/-- C8 (amended): the key returned by `gen` is the Python `str()`
representation of the `k / 8` bytes drawn by `secrets.token_bytes(k // 8)`
(carrying `k` bits of entropy when `8 ∣ k`); as a string it is strictly
longer than `k / 8` — at least `k / 8 + 3` characters — never a byte string
of exactly `k / 8` bytes. -/
theorem C8_key_is_repr (H : Str → Bytes → Nat) (w : List Nat) (k : Nat) (t delta : ℝ)
    (keyBytes : Bytes) (idxRand : Nat → Nat → Nat) (nonceRand : Nat → Bytes)
    (hkb : keyBytes.length = k / 8) :
    (gen H w k t delta keyBytes idxRand nonceRand).1 = reprBytes keyBytes ∧
    k / 8 + 3 ≤ (gen H w k t delta keyBytes idxRand nonceRand).1.length := by
  refine ⟨rfl, ?_⟩
  show k / 8 + 3 ≤ (reprBytes keyBytes).length
  rw [← hkb]
  exact reprBytes_length keyBytes

/-- Witness for the amended C8 at `k = 8`, key byte `0`. -/
theorem C8_witness :
    ([0] : Bytes).length = 8 / 8 ∧
    ((gen hashZero [0, 1] 8 1 1 [0] (fun _ _ => 0) (fun _ => [])).1 = reprBytes [0] ∧
      8 / 8 + 3 ≤ (gen hashZero [0, 1] 8 1 1 [0] (fun _ _ => 0) (fun _ => [])).1.length) :=
  ⟨rfl, C8_key_is_repr hashZero [0, 1] 8 1 1 [0] (fun _ _ => 0) (fun _ => []) rfl⟩

/-- C9: the helper data returned by `gen` has exactly
`l = set_l(n, k, t, delta)` entries, and every entry is a well-formed pair
whose index set has exactly `k` indices, each in `[0, n)` for `n = len(w)`. -/
theorem C9_helper_invariants (H : Str → Bytes → Nat) (w : List Nat) (k : Nat)
    (t delta : ℝ) (keyBytes : Bytes) (idxRand : Nat → Nat → Nat) (nonceRand : Nat → Bytes) :
    ((gen H w k t delta keyBytes idxRand nonceRand).2.length : ℤ) = set_l w.length k t delta ∧
    (gen H w k t delta keyBytes idxRand nonceRand).2.all (entryOk k w.length) = true := by
  have hgen2 : (gen H w k t delta keyBytes idxRand nonceRand).2
      = (List.range ((set_l w.length k t delta).toNat)).map
          (genEntry H w k (reprBytes keyBytes) idxRand nonceRand) := rfl
  constructor
  · rw [hgen2, List.length_map, List.length_range]
    exact Int.toNat_of_nonneg (set_l_nonneg w.length k t delta)
  · rw [hgen2, List.all_eq_true]
    intro e he
    rw [List.mem_map] at he
    obtain ⟨i, hi, rfl⟩ := he
    rw [List.mem_range] at hi
    have hpos : 0 < set_l w.length k t delta := by omega
    obtain ⟨hn2, -, -, -, -⟩ := set_l_valid hpos
    have hn : 0 < w.length := by
      have h0 : (0:ℤ) < (w.length : ℤ) := lt_of_lt_of_le (by norm_num) hn2
      exact_mod_cast h0
    simp only [genEntry, entryOk, Bool.and_eq_true, beq_iff_eq]
    constructor
    · simp
    · rw [List.all_eq_true]
      intro x hx
      rw [List.mem_map] at hx
      obtain ⟨j, hj, rfl⟩ := hx
      simpa using Nat.mod_lt (idxRand i j) hn

/-- C10: for every `alg` argument that is not a string or is not in
`hashlib.algorithms_guaranteed` — in particular the default `"sha-256"`,
which has a hyphen and is not in that set — `selectAlg` falls back to
`sha256`, and both `lock` and `unlock` behave exactly as with `"sha256"`:
the fallback is silent, consistent on both sides, and never raises. -/
theorem C10_sha256_fallback (H : Str → Bytes → Nat) (nb : Bytes) (key val : Str)
    (s : Nat) (c : List Str) (a : AlgArg)
    (h : ∀ s0, a = AlgArg.str s0 → s0 ∉ algorithms_guaranteed) :
    selectAlg a = strLit "sha256" ∧
    lock H nb key val s a = lock H nb key val s (.str (strLit "sha256")) ∧
    unlock H key c s a = unlock H key c s (.str (strLit "sha256")) := by
  have hsel : selectAlg a = strLit "sha256" := by
    cases a with
    | str s0 => rw [selectAlg, if_neg (h s0 rfl)]
    | nonstr => rfl
  have hsel2 : selectAlg (.str (strLit "sha256")) = strLit "sha256" := by
    rw [selectAlg, if_pos (by decide)]
  refine ⟨hsel, ?_, ?_⟩
  · simp only [lock, hsel, hsel2]
  · rcases c with _ | ⟨n1, _ | ⟨x2, _ | ⟨x3, r⟩⟩⟩
    · rfl
    · rfl
    · simp only [unlock, hsel, hsel2]
    · rfl

/-- Witness for C10 at the default argument `"sha-256"`, which is not a
member of `algorithms_guaranteed`. -/
theorem C10_witness :
    (∀ s0, AlgArg.str (strLit "sha-256") = AlgArg.str s0 → s0 ∉ algorithms_guaranteed) ∧
    (selectAlg (.str (strLit "sha-256")) = strLit "sha256" ∧
      lock hashZero [] [] [49] 16 (.str (strLit "sha-256"))
        = lock hashZero [] [] [49] 16 (.str (strLit "sha256")) ∧
      unlock hashZero [] [[], [48]] 16 (.str (strLit "sha-256"))
        = unlock hashZero [] [[], [48]] 16 (.str (strLit "sha256"))) := by
  have h : ∀ s0, AlgArg.str (strLit "sha-256") = AlgArg.str s0 →
      s0 ∉ algorithms_guaranteed := by
    intro s0 he
    injection he with he2
    rw [← he2]
    decide
  exact ⟨h, C10_sha256_fallback hashZero [] [] [49] 16 [[], [48]] (.str (strLit "sha-256")) h⟩

end Canetti
